import Mathlib

set_option maxHeartbeats 1000000

/-!
Verification of the layout/caching engine of `font_atlas.cpp`.

Strings are modelled as lists of byte values (`List Nat`, each element < 256),
exactly the bytes stored in a `std::string`; the terminating null of `c_str()`
is modelled where a function reads past the stored bytes.  Pixel quantities
(`int` in the source) are modelled as `Int`.  The font rasterization backend
(SDL_ttf) is an external collaborator and is modelled as an opaque parameter
structure recording the metrics the engine reads from it.
-/

/-- Modelled from the spec: `is_utf8_following_byte` is declared in `util.hpp`,
which is not among the sources; per the spec a byte is a UTF-8 continuation
byte iff its top two bits are `10`. -/
def is_utf8_following_byte (b : Nat) : Bool := b &&& 0xC0 == 0x80

/-- The `while ((t & 0xC0) == 0xC0)` loop of `utf8_to_ucs4`.  One continuation
byte is consumed from the front of the deque per iteration; the state consists
of the shifted lead byte `t`, the mask/shift/bit counters and the accumulated
`charcode`.  If the source would pop from an empty deque (undefined behaviour),
the model falls out of the loop with the same final accumulation. -/
def ucs4_loop (coded : List Nat) (t high_bit_mask high_bit_shift total_bits charcode : Nat) :
    Nat :=
  if t &&& 0xC0 == 0xC0 then
    match coded with
    | b :: rest =>
        ucs4_loop rest ((t <<< 1) &&& 0xff) (high_bit_mask >>> 1)
          (high_bit_shift + 1) (total_bits + 6) ((charcode <<< 6) ||| (b &&& 63))
    | [] =>
        charcode ||| (((t >>> high_bit_shift) &&& high_bit_mask) <<< total_bits)
  else
    charcode ||| (((t >>> high_bit_shift) &&& high_bit_mask) <<< total_bits)

/-- `utf8_to_ucs4` from `font_atlas.cpp`: decode a UTF-8 byte sequence (lead
byte first) to a codepoint.  `front()` on an empty deque is undefined in the
source; the model returns 0 there. -/
def utf8_to_ucs4 (coded : List Nat) : Nat :=
  match coded with
  | [] => 0
  | t :: rest =>
    if t < 128 then t
    else ucs4_loop rest t ((1 <<< 6) - 1) 0 0 0

/-- `get_last_ucs4` from `font_atlas.cpp`: decode the last UTF-8 character of a
string.  The source sets `ptr = c_str() + size() - 1` and dereferences it: for
the empty string that byte lies one position before the string's storage, and
likewise the backward walk can step before index 0 when every stored byte is a
continuation byte.  Both out-of-bounds reads are modelled as `none`.  If the
byte at `size()-1` is null the source substitutes the literal `" "` and decodes
it. -/
def get_last_ucs4 (s : List Nat) : Option Nat :=
  match s.reverse with
  | [] => none
  | b :: revRest =>
      if b = 0 then some (utf8_to_ucs4 [32])
      else
        match (b :: revRest).dropWhile (fun x => is_utf8_following_byte x) with
        | [] => none
        | lead :: _ =>
            some (utf8_to_ucs4
              (lead :: ((b :: revRest).takeWhile (fun x => is_utf8_following_byte x)).reverse))

/-- `get_first_ucs4` from `font_atlas.cpp`: decode the first UTF-8 character of
a string.  `ptr = c_str()`: for the empty string this reads the terminating
null, in which case the source substitutes the literal `" "`.  The forward walk
collects continuation bytes and stops at the terminating null at latest, so it
never leaves the storage. -/
def get_first_ucs4 (s : List Nat) : Nat :=
  match s with
  | [] => utf8_to_ucs4 [32]
  | b :: rest =>
      if b = 0 then utf8_to_ucs4 [32]
      else utf8_to_ucs4 (b :: rest.takeWhile (fun x => is_utf8_following_byte x))

/-- C3: for the empty word string, both boundary-codepoint helpers substitute a
space and return codepoint 32 without reading outside the string's storage.
This holds for `get_first_ucs4` (it reads the terminating null and substitutes
`" "`), but `get_last_ucs4` dereferences `c_str() + size() - 1`, i.e. the byte
at index -1, before its null check: an out-of-bounds read (modelled as `none`),
contradicting the claimed safety. -/
theorem claim_C3_empty_word_boundary :
    get_first_ucs4 [] = 32 ∧ get_last_ucs4 [] = none := by
  constructor
  · rfl
  · rfl

/-- `split_words` from `font_atlas.cpp`.  The source repeatedly calls
`t.find(' ', last_pos)` and pushes each non-empty `substr` chunk between
spaces, then pushes the non-empty tail; this is realized as a single
left-to-right scan in which `cur` holds the bytes accumulated since the last
space (the chunk `substr(last_pos, pos - last_pos)` when the next space is
found, or `substr(last_pos)` at the end). -/
def split_words_go (cur : List Nat) : List Nat → List (List Nat)
  | [] => if cur = [] then [] else [cur]
  | b :: rest =>
      if b = 32 then
        if cur = [] then split_words_go [] rest
        else cur :: split_words_go [] rest
      else split_words_go (cur ++ [b]) rest

/-- `split_words` from `font_atlas.cpp`: split on the space byte, dropping
empty chunks. -/
def split_words (t : List Nat) : List (List Nat) := split_words_go [] t

/-- The tokenizer contract in the spec's words: the ordered sequence of
maximal non-empty runs of non-space bytes. -/
def split_spec : List Nat → List (List Nat)
  | [] => []
  | b :: rest =>
      if b = 32 then split_spec rest
      else (b :: rest.takeWhile (fun x => x ≠ 32)) ::
        split_spec (rest.dropWhile (fun x => x ≠ 32))
termination_by l => l.length
decreasing_by
  all_goals
    have h : (List.dropWhile (fun x => decide (x ≠ 32)) rest).length ≤ rest.length :=
      (List.dropWhile_sublist _).length_le
    simp only [List.length_cons]
    omega

theorem split_words_go_spec (t : List Nat) :
    split_words_go [] t = split_spec t ∧
      ∀ cur, cur ≠ [] →
        split_words_go cur t =
          (cur ++ t.takeWhile (fun x => x ≠ 32)) ::
            split_spec (t.dropWhile (fun x => x ≠ 32)) := by
  induction t with
  | nil =>
      constructor
      · simp [split_words_go, split_spec]
      · intro cur hcur
        simp [split_words_go, split_spec, hcur]
  | cons b rest ih =>
      by_cases hb : b = 32
      · subst hb
        constructor
        · simp only [split_words_go, if_pos rfl]
          rw [ih.1]
          simp [split_spec]
        · intro cur hcur
          simp only [split_words_go, if_pos rfl, if_neg hcur]
          rw [ih.1]
          simp [split_spec]
      · constructor
        · simp only [split_words_go, if_neg hb, List.nil_append]
          rw [ih.2 [b] (by simp)]
          simp [split_spec, hb]
        · intro cur hcur
          simp only [split_words_go, if_neg hb]
          rw [ih.2 (cur ++ [b]) (by simp)]
          simp [hb]

theorem split_words_eq_split_spec (t : List Nat) :
    split_words t = split_spec t := (split_words_go_spec t).1

theorem split_words_go_ne_nil (t : List Nat) :
    ∀ cur w, w ∈ split_words_go cur t → w ≠ [] := by
  induction t with
  | nil =>
      intro cur w hw
      by_cases hcur : cur = []
      · simp [split_words_go, hcur] at hw
      · simp only [split_words_go, if_neg hcur, List.mem_singleton] at hw
        subst hw
        exact hcur
  | cons b rest ih =>
      intro cur w hw
      by_cases hb : b = 32
      · subst hb
        by_cases hcur : cur = []
        · simp only [split_words_go, if_pos rfl, if_pos hcur] at hw
          exact ih [] w hw
        · simp only [split_words_go, if_pos rfl, if_neg hcur] at hw
          rcases List.mem_cons.mp hw with h | h
          · simpa [h] using hcur
          · exact ih [] w h
      · simp only [split_words_go, if_neg hb] at hw
        exact ih (cur ++ [b]) w hw

/-- C9: `split_words` splits on the space byte into the ordered sequence of
maximal non-empty runs of non-space bytes (equal to the spec-level tokenizer
`split_spec`); no empty tokens are produced; the empty string yields `[]`,
a space-free string yields itself as the only token, and
`split_words "  a   b  "` yields `["a", "b"]` (bytes: 97 = a, 98 = b,
115/111/108/111 = "solo"). -/
theorem claim_C9_tokenizer :
    (∀ t, split_words t = split_spec t) ∧
      (∀ t w, w ∈ split_words t → w ≠ []) ∧
      split_words [32, 32, 97, 32, 32, 32, 98, 32, 32] = [[97], [98]] ∧
      split_words [] = [] ∧
      split_words [115, 111, 108, 111] = [[115, 111, 108, 111]] := by
  refine ⟨split_words_eq_split_spec, fun t w hw => split_words_go_ne_nil t [] w hw,
    ?_, rfl, ?_⟩
  · rfl
  · rfl

/-- Witness for C9 at concrete inputs: the token produced for the one-word
string "a" is non-empty. -/
theorem claim_C9_tokenizer_witness : ([97] : List Nat) ≠ [] :=
  claim_C9_tokenizer.2.1 [97] [97] (by decide)

/-- The standard UTF-8 encoding of a codepoint (1 to 4 bytes), used to state
the round-trip property of the decoder. -/
def utf8_encode (c : Nat) : List Nat :=
  if c < 0x80 then [c]
  else if c < 0x800 then
    [0xC0 ||| (c >>> 6), 0x80 ||| (c &&& 0x3F)]
  else if c < 0x10000 then
    [0xE0 ||| (c >>> 12), 0x80 ||| ((c >>> 6) &&& 0x3F), 0x80 ||| (c &&& 0x3F)]
  else
    [0xF0 ||| (c >>> 18), 0x80 ||| ((c >>> 12) &&& 0x3F),
      0x80 ||| ((c >>> 6) &&& 0x3F), 0x80 ||| (c &&& 0x3F)]

theorem ucs4_loop_step (b : Nat) (rest : List Nat) (t m s tot cc : Nat)
    (h : t &&& 0xC0 = 0xC0) :
    ucs4_loop (b :: rest) t m s tot cc =
      ucs4_loop rest ((t <<< 1) &&& 0xff) (m >>> 1) (s + 1) (tot + 6)
        ((cc <<< 6) ||| (b &&& 63)) := by
  rw [ucs4_loop.eq_def, if_pos (beq_iff_eq.mpr h)]

theorem ucs4_loop_done (coded : List Nat) (t m s tot cc : Nat)
    (h : ¬(t &&& 0xC0 = 0xC0)) :
    ucs4_loop coded t m s tot cc = cc ||| (((t >>> s) &&& m) <<< tot) := by
  rw [ucs4_loop.eq_def, if_neg (by simpa using h)]

theorem nat_and63_eq_mod (c : Nat) : c &&& 63 = c % 64 := by
  have h := Nat.and_pow_two_sub_one_eq_mod c 6
  norm_num at h
  exact h

theorem nat_shr6_eq_div (c : Nat) : c >>> 6 = c / 64 := by
  rw [Nat.shiftRight_eq_div_pow]

theorem nat_shr12_eq_div (c : Nat) : c >>> 12 = c / 4096 := by
  rw [Nat.shiftRight_eq_div_pow]

theorem nat_shr18_eq_div (c : Nat) : c >>> 18 = c / 262144 := by
  rw [Nat.shiftRight_eq_div_pow]

theorem lor192 : ∀ q, q < 64 → 192 ||| q = 192 + q := by decide

theorem lor224 : ∀ p, p < 32 → 224 ||| p = 224 + p := by decide

theorem lor240 : ∀ g, g < 16 → 240 ||| g = 240 + g := by decide

theorem lor128 : ∀ r, r < 64 → 128 ||| r = 128 + r := by decide

/-- Composition of a shifted accumulator with a low 6-bit field. -/
theorem shiftLeft6_lor (a b : Nat) (hb : b < 64) : (a <<< 6) ||| b = 64 * a + b := by
  have hb2 : b < 2 ^ 6 := by norm_num; omega
  calc (a <<< 6) ||| b = 2 ^ 6 * a ||| b := by rw [Nat.shiftLeft_eq, Nat.mul_comm]
    _ = 2 ^ 6 * a + b := (Nat.mul_add_lt_is_or hb2 a).symm
    _ = 64 * a + b := by norm_num

/-- Composition of the accumulated continuation bits with the lead-byte bits. -/
theorem lor_high (cc g n : Nat) (hcc : cc < 2 ^ n) : cc ||| (g <<< n) = 2 ^ n * g + cc := by
  rw [Nat.lor_comm, Nat.shiftLeft_eq, Nat.mul_comm g]
  exact (Nat.mul_add_lt_is_or hcc g).symm

theorem utf8_encode_eq1 (c : Nat) (h : c < 0x80) : utf8_encode c = [c] := by
  unfold utf8_encode
  rw [if_pos h]

theorem utf8_encode_eq2 (c : Nat) (h1 : 0x80 ≤ c) (h2 : c < 0x800) :
    utf8_encode c = [192 + c / 64, 128 + c % 64] := by
  unfold utf8_encode
  rw [if_neg (by omega), if_pos h2, nat_shr6_eq_div, nat_and63_eq_mod,
    lor192 _ (by omega), lor128 _ (by omega)]

theorem utf8_encode_eq3 (c : Nat) (h1 : 0x800 ≤ c) (h2 : c < 0x10000) :
    utf8_encode c = [224 + c / 4096, 128 + c / 64 % 64, 128 + c % 64] := by
  unfold utf8_encode
  rw [if_neg (by omega), if_neg (by omega), if_pos h2, nat_shr12_eq_div,
    nat_shr6_eq_div, nat_and63_eq_mod, nat_and63_eq_mod,
    lor224 _ (by omega), lor128 _ (by omega), lor128 _ (by omega)]

theorem utf8_encode_eq4 (c : Nat) (h1 : 0x10000 ≤ c) (h2 : c < 0x110000) :
    utf8_encode c =
      [240 + c / 262144, 128 + c / 4096 % 64, 128 + c / 64 % 64, 128 + c % 64] := by
  unfold utf8_encode
  rw [if_neg (by omega), if_neg (by omega), if_neg (by omega), nat_shr18_eq_div,
    nat_shr12_eq_div, nat_shr6_eq_div, nat_and63_eq_mod, nat_and63_eq_mod,
    nat_and63_eq_mod, lor240 _ (by omega), lor128 _ (by omega),
    lor128 _ (by omega), lor128 _ (by omega)]

theorem utf8_to_ucs4_cons (t : Nat) (rest : List Nat) :
    utf8_to_ucs4 (t :: rest) =
      if t < 128 then t else ucs4_loop rest t 63 0 0 0 := rfl

theorem cond192 : ∀ q, q < 32 → (192 + q) &&& 192 = 192 := by decide

theorem shift192 : ∀ q, q < 32 → ((192 + q) <<< 1) &&& 255 = 128 + 2 * q := by decide

theorem condNot128_2 : ∀ q, q < 32 → ¬((128 + 2 * q) &&& 192 = 192) := by decide

theorem extract2 : ∀ q, q < 32 → ((128 + 2 * q) >>> 1) &&& 31 = q := by decide

theorem cclow : ∀ r, r < 64 → (0 <<< 6) ||| ((128 + r) &&& 63) = r := by decide

theorem mask63 : ∀ r, r < 64 → (128 + r) &&& 63 = r := by decide

theorem cond224 : ∀ p, p < 16 → (224 + p) &&& 192 = 192 := by decide

theorem shift224 : ∀ p, p < 16 → ((224 + p) <<< 1) &&& 255 = 192 + 2 * p := by decide

theorem cond192e : ∀ p, p < 16 → (192 + 2 * p) &&& 192 = 192 := by decide

theorem shift192e : ∀ p, p < 16 → ((192 + 2 * p) <<< 1) &&& 255 = 128 + 4 * p := by decide

theorem condNot128_4 : ∀ p, p < 16 → ¬((128 + 4 * p) &&& 192 = 192) := by decide

theorem extract3 : ∀ p, p < 16 → ((128 + 4 * p) >>> 2) &&& 15 = p := by decide

theorem cond240 : ∀ g, g < 8 → (240 + g) &&& 192 = 192 := by decide

theorem shift240 : ∀ g, g < 8 → ((240 + g) <<< 1) &&& 255 = 224 + 2 * g := by decide

theorem cond224e : ∀ g, g < 8 → (224 + 2 * g) &&& 192 = 192 := by decide

theorem shift224e : ∀ g, g < 8 → ((224 + 2 * g) <<< 1) &&& 255 = 192 + 4 * g := by decide

theorem cond192f : ∀ g, g < 8 → (192 + 4 * g) &&& 192 = 192 := by decide

theorem shift192f : ∀ g, g < 8 → ((192 + 4 * g) <<< 1) &&& 255 = 128 + 8 * g := by decide

theorem condNot128_8 : ∀ g, g < 8 → ¬((128 + 8 * g) &&& 192 = 192) := by decide

theorem extract4 : ∀ g, g < 8 → ((128 + 8 * g) >>> 3) &&& 7 = g := by decide

theorem utf8_decode1 (c : Nat) (h : c < 128) : utf8_to_ucs4 [c] = c := by
  rw [utf8_to_ucs4_cons, if_pos h]

theorem utf8_decode2 (c : Nat) (h1 : 0x80 ≤ c) (h2 : c < 0x800) :
    utf8_to_ucs4 [192 + c / 64, 128 + c % 64] = c := by
  have hq : c / 64 < 32 := by omega
  have hr : c % 64 < 64 := Nat.mod_lt _ (by norm_num)
  rw [utf8_to_ucs4_cons, if_neg (by omega),
    ucs4_loop_step _ _ _ _ _ _ _ (cond192 _ hq), shift192 _ hq, cclow _ hr]
  show ucs4_loop [] (128 + 2 * (c / 64)) 31 1 6 (c % 64) = c
  rw [ucs4_loop_done _ _ _ _ _ _ (condNot128_2 _ hq), extract2 _ hq,
    lor_high _ _ 6 (by norm_num; omega)]
  norm_num
  omega

theorem utf8_decode3 (c : Nat) (h1 : 0x800 ≤ c) (h2 : c < 0x10000) :
    utf8_to_ucs4 [224 + c / 4096, 128 + c / 64 % 64, 128 + c % 64] = c := by
  have hp : c / 4096 < 16 := by omega
  have hy : c / 64 % 64 < 64 := Nat.mod_lt _ (by norm_num)
  have hr : c % 64 < 64 := Nat.mod_lt _ (by norm_num)
  rw [utf8_to_ucs4_cons, if_neg (by omega),
    ucs4_loop_step _ _ _ _ _ _ _ (cond224 _ hp), shift224 _ hp, cclow _ hy]
  show ucs4_loop [128 + c % 64] (192 + 2 * (c / 4096)) 31 1 6 (c / 64 % 64) = c
  rw [ucs4_loop_step _ _ _ _ _ _ _ (cond192e _ hp), shift192e _ hp, mask63 _ hr,
    shiftLeft6_lor _ _ hr]
  show ucs4_loop [] (128 + 4 * (c / 4096)) 15 2 12 (64 * (c / 64 % 64) + c % 64) = c
  rw [ucs4_loop_done _ _ _ _ _ _ (condNot128_4 _ hp), extract3 _ hp,
    lor_high _ _ 12 (by norm_num; omega)]
  norm_num
  omega

theorem utf8_decode4 (c : Nat) (h1 : 0x10000 ≤ c) (h2 : c < 0x110000) :
    utf8_to_ucs4 [240 + c / 262144, 128 + c / 4096 % 64, 128 + c / 64 % 64, 128 + c % 64]
      = c := by
  have hg : c / 262144 < 8 := by omega
  have hx : c / 4096 % 64 < 64 := Nat.mod_lt _ (by norm_num)
  have hy : c / 64 % 64 < 64 := Nat.mod_lt _ (by norm_num)
  have hr : c % 64 < 64 := Nat.mod_lt _ (by norm_num)
  rw [utf8_to_ucs4_cons, if_neg (by omega),
    ucs4_loop_step _ _ _ _ _ _ _ (cond240 _ hg), shift240 _ hg, cclow _ hx]
  show ucs4_loop [128 + c / 64 % 64, 128 + c % 64] (224 + 2 * (c / 262144)) 31 1 6
    (c / 4096 % 64) = c
  rw [ucs4_loop_step _ _ _ _ _ _ _ (cond224e _ hg), shift224e _ hg, mask63 _ hy,
    shiftLeft6_lor _ _ hy]
  show ucs4_loop [128 + c % 64] (192 + 4 * (c / 262144)) 15 2 12
    (64 * (c / 4096 % 64) + c / 64 % 64) = c
  rw [ucs4_loop_step _ _ _ _ _ _ _ (cond192f _ hg), shift192f _ hg, mask63 _ hr,
    shiftLeft6_lor _ _ hr]
  show ucs4_loop [] (128 + 8 * (c / 262144)) 7 3 18
    (64 * (64 * (c / 4096 % 64) + c / 64 % 64) + c % 64) = c
  rw [ucs4_loop_done _ _ _ _ _ _ (condNot128_8 _ hg), extract4 _ hg,
    lor_high _ _ 18 (by norm_num; omega)]
  norm_num
  omega

theorem follow128 : ∀ r, r < 64 → is_utf8_following_byte (128 + r) = true := by decide

theorem notfollow_ascii : ∀ x, x < 128 → is_utf8_following_byte x = false := by decide

theorem notfollow_lead : ∀ q, q < 64 → is_utf8_following_byte (192 + q) = false := by decide

theorem get_first_ucs4_cons (b : Nat) (rest : List Nat) :
    get_first_ucs4 (b :: rest) =
      if b = 0 then utf8_to_ucs4 [32]
      else utf8_to_ucs4 (b :: rest.takeWhile (fun x => is_utf8_following_byte x)) := rfl

/-- `get_first_ucs4` on a word whose tail consists of continuation bytes only
decodes the whole word. -/
theorem get_first_ucs4_all (b : Nat) (rest : List Nat) (hb : b ≠ 0)
    (hall : ∀ x ∈ rest, is_utf8_following_byte x = true) :
    get_first_ucs4 (b :: rest) = utf8_to_ucs4 (b :: rest) := by
  rw [get_first_ucs4_cons, if_neg hb, List.takeWhile_eq_self_iff.mpr hall]

theorem get_last_ucs4_one (b : Nat) (hb : b ≠ 0)
    (hnf : is_utf8_following_byte b = false) :
    get_last_ucs4 [b] = some (utf8_to_ucs4 [b]) := by
  unfold get_last_ucs4
  simp [hb, hnf]

theorem get_last_ucs4_two (b0 b1 : Nat) (hb1 : b1 ≠ 0)
    (hf1 : is_utf8_following_byte b1 = true)
    (hnf : is_utf8_following_byte b0 = false) :
    get_last_ucs4 [b0, b1] = some (utf8_to_ucs4 [b0, b1]) := by
  unfold get_last_ucs4
  simp [hb1, hf1, hnf]

theorem get_last_ucs4_three (b0 b1 b2 : Nat) (hb2 : b2 ≠ 0)
    (hf1 : is_utf8_following_byte b1 = true)
    (hf2 : is_utf8_following_byte b2 = true)
    (hnf : is_utf8_following_byte b0 = false) :
    get_last_ucs4 [b0, b1, b2] = some (utf8_to_ucs4 [b0, b1, b2]) := by
  unfold get_last_ucs4
  simp [hb2, hf1, hf2, hnf]

theorem get_last_ucs4_four (b0 b1 b2 b3 : Nat) (hb3 : b3 ≠ 0)
    (hf1 : is_utf8_following_byte b1 = true)
    (hf2 : is_utf8_following_byte b2 = true)
    (hf3 : is_utf8_following_byte b3 = true)
    (hnf : is_utf8_following_byte b0 = false) :
    get_last_ucs4 [b0, b1, b2, b3] = some (utf8_to_ucs4 [b0, b1, b2, b3]) := by
  unfold get_last_ucs4
  simp [hb3, hf1, hf2, hf3, hnf]

theorem notfollow224 : ∀ p, p < 16 → is_utf8_following_byte (224 + p) = false := by decide

theorem notfollow240 : ∀ g, g < 8 → is_utf8_following_byte (240 + g) = false := by decide

/-- C6 counterexample: the claim quantifies over every valid UTF-8 encoding of
a codepoint, but for U+0000 (the one-byte encoding `[0]`) the boundary helpers
see the `c_str()` terminator, substitute a space and return 32, not 0 — the
round trip through first/last extraction is not the identity there. -/
theorem claim_C6_counterexample :
    utf8_encode 0 = [0] ∧ get_first_ucs4 (utf8_encode 0) = 32 ∧
      get_last_ucs4 (utf8_encode 0) = some 32 ∧ (32 : Nat) ≠ 0 := by decide

/-- C6 (amended): for every Unicode codepoint `c < 0x110000`, decoding the
UTF-8 encoding of `c` with `utf8_to_ucs4` returns exactly `c`; and for every
such codepoint except U+0000 (whose encoded byte is the null byte, which the
C-string boundary helpers treat as the empty string and replace by a space),
first/last-codepoint extraction on the single-codepoint word also returns
exactly `c`. -/
theorem claim_C6_utf8_roundtrip (c : Nat) (hc : c < 0x110000) :
    utf8_to_ucs4 (utf8_encode c) = c ∧
      (0 < c →
        get_first_ucs4 (utf8_encode c) = c ∧
          get_last_ucs4 (utf8_encode c) = some c) := by
  rcases Nat.lt_or_ge c 0x80 with h1 | h1
  · rw [utf8_encode_eq1 c h1]
    refine ⟨utf8_decode1 c h1, fun hc0 => ⟨?_, ?_⟩⟩
    · rw [get_first_ucs4_all c [] (by omega) (by simp), utf8_decode1 c h1]
    · rw [get_last_ucs4_one c (by omega) (notfollow_ascii c h1), utf8_decode1 c h1]
  · rcases Nat.lt_or_ge c 0x800 with h2 | h2
    · rw [utf8_encode_eq2 c h1 h2]
      have hr : c % 64 < 64 := Nat.mod_lt _ (by norm_num)
      have hlead : is_utf8_following_byte (192 + c / 64) = false :=
        notfollow_lead _ (by omega)
      refine ⟨utf8_decode2 c h1 h2, fun hc0 => ⟨?_, ?_⟩⟩
      · rw [get_first_ucs4_all _ _ (by omega) ?_, utf8_decode2 c h1 h2]
        intro x hx
        rw [List.mem_singleton] at hx
        subst hx
        exact follow128 _ hr
      · rw [get_last_ucs4_two _ _ (by omega) (follow128 _ hr) hlead,
          utf8_decode2 c h1 h2]
    · rcases Nat.lt_or_ge c 0x10000 with h3 | h3
      · rw [utf8_encode_eq3 c h2 h3]
        have hy : c / 64 % 64 < 64 := Nat.mod_lt _ (by norm_num)
        have hr : c % 64 < 64 := Nat.mod_lt _ (by norm_num)
        have hlead : is_utf8_following_byte (224 + c / 4096) = false :=
          notfollow224 _ (by omega)
        refine ⟨utf8_decode3 c h2 h3, fun hc0 => ⟨?_, ?_⟩⟩
        · rw [get_first_ucs4_all _ _ (by omega) ?_, utf8_decode3 c h2 h3]
          intro x hx
          rcases List.mem_cons.mp hx with h | h
          · subst h; exact follow128 _ hy
          · rw [List.mem_singleton] at h
            subst h; exact follow128 _ hr
        · rw [get_last_ucs4_three _ _ _ (by omega) (follow128 _ hy) (follow128 _ hr)
            hlead, utf8_decode3 c h2 h3]
      · rw [utf8_encode_eq4 c h3 hc]
        have hx64 : c / 4096 % 64 < 64 := Nat.mod_lt _ (by norm_num)
        have hy : c / 64 % 64 < 64 := Nat.mod_lt _ (by norm_num)
        have hr : c % 64 < 64 := Nat.mod_lt _ (by norm_num)
        have hlead : is_utf8_following_byte (240 + c / 262144) = false :=
          notfollow240 _ (by omega)
        refine ⟨utf8_decode4 c h3 hc, fun hc0 => ⟨?_, ?_⟩⟩
        · rw [get_first_ucs4_all _ _ (by omega) ?_, utf8_decode4 c h3 hc]
          intro x hx
          rcases List.mem_cons.mp hx with h | h
          · subst h; exact follow128 _ hx64
          rcases List.mem_cons.mp h with h | h
          · subst h; exact follow128 _ hy
          · rw [List.mem_singleton] at h
            subst h; exact follow128 _ hr
        · rw [get_last_ucs4_four _ _ _ _ (by omega) (follow128 _ hx64)
            (follow128 _ hy) (follow128 _ hr) hlead, utf8_decode4 c h3 hc]

/-- Witness for C6 at the concrete 3-byte codepoint U+20AC (8364). -/
theorem claim_C6_utf8_roundtrip_witness :
    utf8_to_ucs4 (utf8_encode 8364) = 8364 ∧
      get_first_ucs4 (utf8_encode 8364) = 8364 ∧
      get_last_ucs4 (utf8_encode 8364) = some 8364 := by
  have h := claim_C6_utf8_roundtrip 8364 (by norm_num)
  exact ⟨h.1, (h.2 (by norm_num)).1, (h.2 (by norm_num)).2⟩

/-- Abstraction of the opaque font backend (SDL_ttf) as the engine observes
it: the cached advance of the space glyph (`_space_advance`), the line-skip
and font-height metrics, the pixel width of the rendered surface of each word
(`word(w)->w`; the surface of a word depends only on its bytes), the kerning
table (`TTF_GetFontKerningSizeGlyphs`), and the whole-string size query
(`TTF_SizeUTF8`, `none` on failure). -/
structure FontModel where
  space_advance : Int
  line_skip : Int
  fheight : Int
  wOf : List Nat → Int
  kern : Nat → Nat → Int
  sizeUTF8 : List Nat → Option (Int × Int)

/-- `font_atlas::get_word_left_kerning`: kerning between the word's last
codepoint and the space glyph.  For a word on which `get_last_ucs4` performs an
out-of-bounds read (never the case for tokens produced by `split_words` on
valid UTF-8) the source behaviour is undefined; the model passes 0. -/
def get_word_left_kerning (f : FontModel) (word : List Nat) : Int :=
  match get_last_ucs4 word with
  | some c => f.kern c 32
  | none => 0

/-- `font_atlas::get_word_right_kerning`: kerning between the space glyph and
the word's first codepoint. -/
def get_word_right_kerning (f : FontModel) (word : List Nat) : Int :=
  f.kern 32 (get_first_ucs4 word)

/-- The join width computed in `font_atlas::text`:
`get_word_left_kerning(words[n]) + _space_advance + get_word_right_kerning(words[n+1])`. -/
def join_width (f : FontModel) (a b : List Nat) : Int :=
  get_word_left_kerning f a + f.space_advance + get_word_right_kerning f b

/-- One line of the render layout: the word surfaces placed on the line
(identified by their word strings), the per-word leading gaps
(`spaces_per_line`), and the accumulated line width (`widths`). -/
structure Line where
  words : List (List Nat)
  spaces : List Int
  width : Int

/-- The pairing loop of `font_atlas::text` (`for n; n + 1 < words.size()`):
`wn` is `words[n]`, `rest` the words after it, `cur` the line currently being
filled (the `.back()` of the per-line vectors). -/
def layout_go (f : FontModel) (mw : Int) (wn : List Nat) (rest : List (List Nat))
    (cur : Line) : List Line :=
  match rest with
  | [] => [cur]
  | wn1 :: rest1 =>
      if mw = -1 ∨ cur.width + join_width f wn wn1 + f.wOf wn1 < mw then
        layout_go f mw wn1 rest1
          ⟨cur.words ++ [wn1], cur.spaces ++ [join_width f wn wn1],
            cur.width + join_width f wn wn1 + f.wOf wn1⟩
      else
        cur :: layout_go f mw wn1 rest1 ⟨[wn1], [0], f.wOf wn1⟩

/-- The per-line state of `font_atlas::text` after the pairing loop, seeded
with line 0 holding word 0 (`widths{surfaces[0]->w}`, `spaces_per_line{{0}}`,
`surfaces_per_line{{surfaces[0]}}`). -/
def layout (f : FontModel) (mw : Int) (words : List (List Nat)) : List Line :=
  match words with
  | [] => []
  | w0 :: rest => layout_go f mw w0 rest ⟨[w0], [0], f.wOf w0⟩

/-- `*std::max_element(widths.begin(), widths.end())`; the widths list is
never empty in the source. -/
def max_widths : List Int → Int
  | [] => 0
  | x :: xs => xs.foldl max x

/-- The canvas size allocated by `font_atlas::text`: for empty text or an
empty token sequence the fallback `SDL_CreateRGBSurfaceWithFormat(0, 0,
font_height(), 32, ...)` produces a width-0, height-`font_height()` surface;
otherwise width is the maximal line width and height is
`font_line_skip() * number of lines`. -/
def text_canvas_size (f : FontModel) (t : List Nat) (mw : Int) : Int × Int :=
  match split_words t with
  | [] => (0, f.fheight)
  | w0 :: rest =>
      (max_widths ((layout f mw (w0 :: rest)).map Line.width),
        f.line_skip * ((layout f mw (w0 :: rest)).length : Int))

/-- The bounded-mode loop of `font_atlas::text_size` (`for k = 0; k <
words.size()`), carrying `actual_max_width`, `lines`,
`current_line_num_words` and `current_line_width`; `none` models the `return
{-1, -1}` taken when a word whose own width reaches the budget fails to fit. -/
def measure_loop (f : FontModel) (mw : Int) (actual_max lines num_words current : Int) :
    List (List Nat) → Option (Int × Int × Int × Int)
  | [] => some (actual_max, lines, num_words, current)
  | w :: rest =>
      if f.wOf w + f.space_advance + current ≥ mw then
        if f.wOf w ≥ mw then none
        else
          measure_loop f mw (max current actual_max) (lines + 1) 1 (f.wOf w) rest
      else
        measure_loop f mw actual_max lines (num_words + 1)
          (current + (f.wOf w + f.space_advance)) rest

/-- `font_atlas::text_size`: unbounded mode delegates to `TTF_SizeUTF8`
(failure reported as `(-1,-1)`); bounded mode returns `(0,0)` for an empty
token sequence, else runs the greedy loop seeded with `lines = 1`,
`current_line_num_words = 1` and `current_line_width = word(words[0])->w`,
over the whole word list, and finally returns
`(max(current_line_width, actual_max_width), lines * font_line_skip())`. -/
def text_size (f : FontModel) (t : List Nat) (mw : Int) : Int × Int :=
  if mw = -1 then
    match f.sizeUTF8 t with
    | none => (-1, -1)
    | some wh => wh
  else
    match split_words t with
    | [] => (0, 0)
    | w0 :: rest =>
        match measure_loop f mw 0 1 1 (f.wOf w0) (w0 :: rest) with
        | none => (-1, -1)
        | some (actual_max, lines, _, current) =>
            (max current actual_max, lines * f.line_skip)

/-- A flat test font: every rendered word is `cw` pixels per byte, all kerning
is zero, advance of space is `adv`, line skip `skip`, font height `fh`. -/
def flatFont (cw adv skip fh : Int) : FontModel where
  space_advance := adv
  line_skip := skip
  fheight := fh
  wOf := fun w => cw * (w.length : Int)
  kern := fun _ _ => 0
  sizeUTF8 := fun w => some (cw * (w.length : Int), fh)

theorem measure_loop_nil (f : FontModel) (mw am l n cur : Int) :
    measure_loop f mw am l n cur [] = some (am, l, n, cur) := rfl

theorem measure_loop_cons (f : FontModel) (mw am l n cur : Int) (w : List Nat)
    (rest : List (List Nat)) :
    measure_loop f mw am l n cur (w :: rest) =
      if f.wOf w + f.space_advance + cur ≥ mw then
        if f.wOf w ≥ mw then none
        else measure_loop f mw (max cur am) (l + 1) 1 (f.wOf w) rest
      else
        measure_loop f mw am l (n + 1) (cur + (f.wOf w + f.space_advance)) rest := rfl

theorem measure_loop_fit (f : FontModel) (mw am l n cur : Int) (w : List Nat)
    (rest : List (List Nat)) (h : ¬(f.wOf w + f.space_advance + cur ≥ mw)) :
    measure_loop f mw am l n cur (w :: rest) =
      measure_loop f mw am l (n + 1) (cur + (f.wOf w + f.space_advance)) rest := by
  rw [measure_loop_cons, if_neg h]

theorem measure_loop_newline (f : FontModel) (mw am l n cur : Int) (w : List Nat)
    (rest : List (List Nat)) (h1 : f.wOf w + f.space_advance + cur ≥ mw)
    (h2 : ¬(f.wOf w ≥ mw)) :
    measure_loop f mw am l n cur (w :: rest) =
      measure_loop f mw (max cur am) (l + 1) 1 (f.wOf w) rest := by
  rw [measure_loop_cons, if_pos h1, if_neg h2]

theorem measure_loop_oversized (f : FontModel) (mw am l n cur : Int) (w : List Nat)
    (rest : List (List Nat)) (h1 : f.wOf w + f.space_advance + cur ≥ mw)
    (h2 : f.wOf w ≥ mw) :
    measure_loop f mw am l n cur (w :: rest) = none := by
  rw [measure_loop_cons, if_pos h1, if_pos h2]

theorem text_size_words (f : FontModel) (t : List Nat) (mw : Int) (hmw : mw ≠ -1)
    (w0 : List Nat) (rest : List (List Nat)) (hsplit : split_words t = w0 :: rest) :
    text_size f t mw =
      match measure_loop f mw 0 1 1 (f.wOf w0) (w0 :: rest) with
      | none => (-1, -1)
      | some (actual_max, lines, _, current) =>
          (max current actual_max, lines * f.line_skip) := by
  unfold text_size
  rw [if_neg hmw, hsplit]

/-- C2 counterexample: on the empty text the render path does not produce a
zero-sized canvas — the fallback surface has height `font_height()` (10 for
this test font), only its width is 0. -/
theorem claim_C2_counterexample :
    text_canvas_size (flatFont 1 1 2 10) [] (-1) = (0, 10) ∧
      (text_canvas_size (flatFont 1 1 2 10) [] (-1)).2 ≠ 0 := by
  constructor
  · rfl
  · decide

theorem text_canvas_size_of_empty_tokens (f : FontModel) (t : List Nat) (mw : Int)
    (h : split_words t = []) :
    text_canvas_size f t mw = (0, f.fheight) := by
  unfold text_canvas_size
  rw [h]

/-- C2 (amended): for every input whose tokenization is empty — the empty
text and all-whitespace text alike — `font_atlas::text` returns the same
zero-width canvas of height one `font_height()` unit; empty input is never an
error. -/
theorem claim_C2_empty_canvas (f : FontModel) (t : List Nat) (mw : Int)
    (h : split_words t = []) :
    text_canvas_size f t mw = (0, f.fheight) :=
  text_canvas_size_of_empty_tokens f t mw h

/-- Witness for C2 at the all-whitespace input `"  "`. -/
theorem claim_C2_empty_canvas_witness :
    text_canvas_size (flatFont 1 1 2 10) [32, 32] 5 = (0, 10) :=
  claim_C2_empty_canvas (flatFont 1 1 2 10) [32, 32] 5 (by decide)

/-- C10: in bounded mode `text_size` on a text whose tokenization is empty
returns the success pair `(0, 0)` — not the failure sentinel — with height 0,
whereas the render path produces a canvas of height `font_height()` for the
same input. -/
theorem claim_C10_measure_empty (f : FontModel) (t : List Nat) (mw : Int)
    (hmw : mw ≠ -1) (h : split_words t = []) :
    text_size f t mw = (0, 0) ∧ text_size f t mw ≠ (-1, -1) ∧
      text_canvas_size f t mw = (0, f.fheight) := by
  have hz : text_size f t mw = (0, 0) := by
    unfold text_size
    rw [if_neg hmw, h]
  refine ⟨hz, ?_, text_canvas_size_of_empty_tokens f t mw h⟩
  rw [hz]
  decide

/-- Witness for C10 at the one-space input `" "` with budget 5. -/
theorem claim_C10_measure_empty_witness :
    text_size (flatFont 1 1 2 10) [32] 5 = (0, 0) ∧
      text_size (flatFont 1 1 2 10) [32] 5 ≠ (-1, -1) ∧
      text_canvas_size (flatFont 1 1 2 10) [32] 5 = (0, 10) :=
  claim_C10_measure_empty (flatFont 1 1 2 10) [32] 5 (by decide) (by decide)

/-- C5: in bounded measure mode, when a word does not fit on the current line
and its own surface width meets-or-exceeds the budget, `text_size` returns the
failure sentinel `(-1, -1)` at once (no word-splitting fallback); in
particular, for a one-word text, `text_size(t, width_of(word) - 1)` is
`(-1, -1)` for any font with positive word width and non-negative space
advance. -/
theorem claim_C5_oversized_word :
    (∀ (f : FontModel) (mw am l n cur : Int) (w : List Nat)
        (rest : List (List Nat)),
        f.wOf w + f.space_advance + cur ≥ mw → f.wOf w ≥ mw →
        measure_loop f mw am l n cur (w :: rest) = none) ∧
      ∀ (f : FontModel) (t w : List Nat), split_words t = [w] →
        1 ≤ f.wOf w → 0 ≤ f.space_advance →
        text_size f t (f.wOf w - 1) = (-1, -1) := by
  refine ⟨measure_loop_oversized, fun f t w hsplit hw hadv => ?_⟩
  rw [text_size_words f t _ (by omega) w [] hsplit,
    measure_loop_oversized f _ 0 1 1 (f.wOf w) w [] (by omega) (by omega)]

/-- Witness for C5: the one-letter text `"x"` (byte 120) has width 1 in the
flat test font and fails to measure under budget `1 - 1 = 0`. -/
theorem claim_C5_oversized_word_witness :
    text_size (flatFont 1 1 2 10) [120] 0 = (-1, -1) := by
  have h := claim_C5_oversized_word.2 (flatFont 1 1 2 10) [120] [120]
    (by decide) (by decide) (by decide)
  exact h

/-- C1 counterexample: with the flat test font (1 pixel per byte, space
advance 1, line skip 2), `text_size("aaaa bbbb cccc", 8)` — a budget of
`width("aaaa") + width("bbbb")` — returns `(4, 8)`: four lines of one word
each and maximal line width 4, not the claimed two lines (height `2 * 2`)
with first-line width at least `4 + 4 + 1 = 9`. -/
theorem claim_C1_counterexample :
    text_size (flatFont 1 1 2 10) [97, 97, 97, 97, 32, 98, 98, 98, 98, 32, 99, 99, 99, 99] 8
        = (4, 8) ∧
      ¬((text_size (flatFont 1 1 2 10)
            [97, 97, 97, 97, 32, 98, 98, 98, 98, 32, 99, 99, 99, 99] 8).2 = 2 * 2 ∧
        9 ≤ (text_size (flatFont 1 1 2 10)
            [97, 97, 97, 97, 32, 98, 98, 98, 98, 32, 99, 99, 99, 99] 8).1) := by
  constructor
  · decide
  · decide

/-- C1 (amended): in bounded mode `text_size` performs greedy packing, but the
loop runs over every tokenized word including the first, whose width already
seeds the current line: a word is accumulated onto the current line exactly
when its image width plus the flat space advance plus the current line width
stays strictly below `max_width`, and otherwise (when its own width is below
the budget) a new line is started seeded with only that word.  Consequently,
for a flat test font with positive glyph width and non-negative space advance,
`text_size("aaaa bbbb cccc", width_of("aaaa") + width_of("bbbb"))` yields four
lines — every word, the first included, fails the meet-or-exceed test — with
maximal line width `width_of("aaaa")`. -/
theorem claim_C1_measure_greedy :
    (∀ (f : FontModel) (mw am l n cur : Int) (w : List Nat) (rest : List (List Nat)),
        (¬(f.wOf w + f.space_advance + cur ≥ mw) →
          measure_loop f mw am l n cur (w :: rest) =
            measure_loop f mw am l (n + 1) (cur + (f.wOf w + f.space_advance)) rest) ∧
        (f.wOf w + f.space_advance + cur ≥ mw → ¬(f.wOf w ≥ mw) →
          measure_loop f mw am l n cur (w :: rest) =
            measure_loop f mw (max cur am) (l + 1) 1 (f.wOf w) rest)) ∧
      ∀ cw adv skip fh : Int, 1 ≤ cw → 0 ≤ adv →
        text_size (flatFont cw adv skip fh)
            [97, 97, 97, 97, 32, 98, 98, 98, 98, 32, 99, 99, 99, 99]
            ((flatFont cw adv skip fh).wOf [97, 97, 97, 97] +
              (flatFont cw adv skip fh).wOf [98, 98, 98, 98]) =
          ((flatFont cw adv skip fh).wOf [97, 97, 97, 97], 4 * skip) := by
  refine ⟨fun f mw am l n cur w rest =>
    ⟨measure_loop_fit f mw am l n cur w rest,
      measure_loop_newline f mw am l n cur w rest⟩,
    fun cw adv skip fh hcw hadv => ?_⟩
  have hWa : (flatFont cw adv skip fh).wOf [97, 97, 97, 97] = cw * 4 := by
    simp [flatFont]
  have hWb : (flatFont cw adv skip fh).wOf [98, 98, 98, 98] = cw * 4 := by
    simp [flatFont]
  have hWc : (flatFont cw adv skip fh).wOf [99, 99, 99, 99] = cw * 4 := by
    simp [flatFont]
  have hAdv : (flatFont cw adv skip fh).space_advance = adv := rfl
  have hSkip : (flatFont cw adv skip fh).line_skip = skip := rfl
  rw [hWa, hWb,
    text_size_words (flatFont cw adv skip fh) _ (cw * 4 + cw * 4) (by omega)
      [97, 97, 97, 97] [[98, 98, 98, 98], [99, 99, 99, 99]] (by decide), hWa,
    measure_loop_newline _ _ 0 1 1 (cw * 4) _ _
      (by rw [hWa, hAdv]; omega) (by rw [hWa]; omega), hWa,
    measure_loop_newline _ _ _ (1 + 1) 1 (cw * 4) _ _
      (by rw [hWb, hAdv]; omega) (by rw [hWb]; omega), hWb,
    measure_loop_newline _ _ _ (1 + 1 + 1) 1 (cw * 4) _ _
      (by rw [hWc, hAdv]; omega) (by rw [hWc]; omega), hWc,
    measure_loop_nil]
  have hm0 : max (cw * 4) (0 : Int) = cw * 4 := max_eq_left (by omega)
  rw [hm0, max_self, max_self]
  show ((cw * 4 : Int) ⊔ (cw * 4), (1 + 1 + 1 + 1) * (flatFont cw adv skip fh).line_skip)
      = (cw * 4, 4 * skip)
  rw [max_self, hSkip]
  norm_num

/-- Witness for C1 at the concrete flat font with glyph width 1, advance 1,
line skip 2. -/
theorem claim_C1_measure_greedy_witness :
    text_size (flatFont 1 1 2 10) [97, 97, 97, 97, 32, 98, 98, 98, 98, 32, 99, 99, 99, 99]
        ((flatFont 1 1 2 10).wOf [97, 97, 97, 97] + (flatFont 1 1 2 10).wOf [98, 98, 98, 98])
      = ((flatFont 1 1 2 10).wOf [97, 97, 97, 97], 4 * 2) :=
  claim_C1_measure_greedy.2 1 1 2 10 (by norm_num) (by norm_num)

theorem layout_go_cons (f : FontModel) (mw : Int) (wn wn1 : List Nat)
    (rest1 : List (List Nat)) (cur : Line) :
    layout_go f mw wn (wn1 :: rest1) cur =
      if mw = -1 ∨ cur.width + join_width f wn wn1 + f.wOf wn1 < mw then
        layout_go f mw wn1 rest1
          ⟨cur.words ++ [wn1], cur.spaces ++ [join_width f wn wn1],
            cur.width + join_width f wn wn1 + f.wOf wn1⟩
      else cur :: layout_go f mw wn1 rest1 ⟨[wn1], [0], f.wOf wn1⟩ := rfl

theorem layout_go_flatten (f : FontModel) (mw : Int) :
    ∀ (rest : List (List Nat)) (wn : List Nat) (cur : Line),
      ((layout_go f mw wn rest cur).map Line.words).flatten = cur.words ++ rest := by
  intro rest
  induction rest with
  | nil =>
      intro wn cur
      simp [layout_go]
  | cons wn1 rest1 ih =>
      intro wn cur
      rw [layout_go_cons]
      by_cases h : mw = -1 ∨ cur.width + join_width f wn wn1 + f.wOf wn1 < mw
      · rw [if_pos h, ih]
        simp
      · rw [if_neg h]
        simp [ih]

/-- C4: in the render path, the join width between adjacent words equals the
left-kerning of the earlier word against space (kerning of its last decoded
codepoint with 32) plus the cached space advance plus the right-kerning of
space against the later word's first decoded codepoint; the later word is
appended to the current line exactly when `max_line_width` is the unbounded
sentinel `-1` or the candidate width is strictly below the budget, and
otherwise a new line is started holding only that word, with no overflow check
— every word always appears in the layout, in order. -/
theorem claim_C4_render_join :
    (∀ (f : FontModel) (mw : Int) (wn wn1 : List Nat) (rest : List (List Nat))
        (cur : Line),
        ((mw = -1 ∨ cur.width + join_width f wn wn1 + f.wOf wn1 < mw) →
          layout_go f mw wn (wn1 :: rest) cur =
            layout_go f mw wn1 rest
              ⟨cur.words ++ [wn1], cur.spaces ++ [join_width f wn wn1],
                cur.width + join_width f wn wn1 + f.wOf wn1⟩) ∧
        (¬(mw = -1 ∨ cur.width + join_width f wn wn1 + f.wOf wn1 < mw) →
          layout_go f mw wn (wn1 :: rest) cur =
            cur :: layout_go f mw wn1 rest ⟨[wn1], [0], f.wOf wn1⟩)) ∧
      (∀ (f : FontModel) (wn wn1 : List Nat) (c : Nat),
        get_last_ucs4 wn = some c →
          join_width f wn wn1 =
            f.kern c 32 + f.space_advance + f.kern 32 (get_first_ucs4 wn1)) ∧
      ∀ (f : FontModel) (mw : Int) (w0 : List Nat) (ws : List (List Nat)),
        ((layout f mw (w0 :: ws)).map Line.words).flatten = w0 :: ws := by
  refine ⟨fun f mw wn wn1 rest cur => ⟨fun h => ?_, fun h => ?_⟩,
    fun f wn wn1 c h => ?_, fun f mw w0 ws => ?_⟩
  · rw [layout_go_cons, if_pos h]
  · rw [layout_go_cons, if_neg h]
  · unfold join_width get_word_left_kerning get_word_right_kerning
    rw [h]
  · show ((layout_go f mw w0 ws ⟨[w0], [0], f.wOf w0⟩).map Line.words).flatten = w0 :: ws
    rw [layout_go_flatten]
    rfl

/-- Witness for C4 at the concrete words "a" and "b" in the flat test font:
the join-width decomposition through the decoded boundary codepoints, and one
append step in unbounded mode. -/
theorem claim_C4_render_join_witness :
    join_width (flatFont 1 1 2 10) [97] [98] =
      (flatFont 1 1 2 10).kern 97 32 + (flatFont 1 1 2 10).space_advance +
        (flatFont 1 1 2 10).kern 32 (get_first_ucs4 [98]) ∧
      layout_go (flatFont 1 1 2 10) (-1) [97] [[98]] ⟨[[97]], [0], 1⟩ =
        layout_go (flatFont 1 1 2 10) (-1) [98] []
          ⟨[[97]] ++ [[98]], [0] ++ [join_width (flatFont 1 1 2 10) [97] [98]],
            (⟨[[97]], [0], 1⟩ : Line).width + join_width (flatFont 1 1 2 10) [97] [98] +
              (flatFont 1 1 2 10).wOf [98]⟩ :=
  ⟨claim_C4_render_join.2.1 (flatFont 1 1 2 10) [97] [98] 97 (by decide),
    (claim_C4_render_join.1 (flatFont 1 1 2 10) (-1) [97] [98] []
      ⟨[[97]], [0], 1⟩).1 (Or.inl rfl)⟩

/-- Greedy-packing monotonicity invariant: running the bounded measure loop
under a wider budget from a dominated state never ends with more lines. -/
theorem measure_loop_mono (f : FontModel) (W1 W2 : Int)
    (hadv : 0 ≤ f.space_advance) (hw : ∀ w, 0 ≤ f.wOf w) (hW : W2 ≤ W1) :
    ∀ (ws : List (List Nat)) (am1 am2 l1 l2 n1 n2 c1 c2 : Int)
      (r1 r2 : Int × Int × Int × Int),
      0 ≤ c1 → 0 ≤ c2 → (l1 < l2 ∨ (l1 = l2 ∧ c1 ≤ c2)) →
      measure_loop f W1 am1 l1 n1 c1 ws = some r1 →
      measure_loop f W2 am2 l2 n2 c2 ws = some r2 →
      r1.2.1 ≤ r2.2.1 := by
  intro ws
  induction ws with
  | nil =>
      intro am1 am2 l1 l2 n1 n2 c1 c2 r1 r2 hc1 hc2 hinv h1 h2
      rw [measure_loop_nil] at h1 h2
      cases h1
      cases h2
      show l1 ≤ l2
      omega
  | cons w rest ih =>
      intro am1 am2 l1 l2 n1 n2 c1 c2 r1 r2 hc1 hc2 hinv h1 h2
      have hww := hw w
      rw [measure_loop_cons] at h1 h2
      by_cases b1 : f.wOf w + f.space_advance + c1 ≥ W1
      · rw [if_pos b1] at h1
        by_cases o1 : f.wOf w ≥ W1
        · rw [if_pos o1] at h1
          exact Option.noConfusion h1
        · rw [if_neg o1] at h1
          by_cases b2 : f.wOf w + f.space_advance + c2 ≥ W2
          · rw [if_pos b2] at h2
            by_cases o2 : f.wOf w ≥ W2
            · rw [if_pos o2] at h2
              exact Option.noConfusion h2
            · rw [if_neg o2] at h2
              exact ih _ _ _ _ _ _ _ _ _ _ hww hww (by omega) h1 h2
          · rw [if_neg b2] at h2
            exact ih _ _ _ _ _ _ _ _ _ _ hww (by omega) (by omega) h1 h2
      · rw [if_neg b1] at h1
        by_cases b2 : f.wOf w + f.space_advance + c2 ≥ W2
        · rw [if_pos b2] at h2
          by_cases o2 : f.wOf w ≥ W2
          · rw [if_pos o2] at h2
            exact Option.noConfusion h2
          · rw [if_neg o2] at h2
            exact ih _ _ _ _ _ _ _ _ _ _ (by omega) hww (by omega) h1 h2
        · rw [if_neg b2] at h2
          exact ih _ _ _ _ _ _ _ _ _ _ (by omega) (by omega) (by omega) h1 h2

/-- C8: for a fixed text and bounded budgets `W1 ≥ W2` (for a font with
non-negative space advance, word widths and line skip, as SDL provides),
whenever neither `text_size(text, W1)` nor `text_size(text, W2)` fails, the
height under the wider budget is at most the height under the narrower one. -/
theorem claim_C8_monotonicity (f : FontModel) (t : List Nat) (W1 W2 : Int)
    (hadv : 0 ≤ f.space_advance) (hwidths : ∀ w, 0 ≤ f.wOf w)
    (hskip : 0 ≤ f.line_skip) (h1 : W1 ≠ -1) (h2 : W2 ≠ -1) (hW : W2 ≤ W1)
    (hs1 : text_size f t W1 ≠ (-1, -1)) (hs2 : text_size f t W2 ≠ (-1, -1)) :
    (text_size f t W1).2 ≤ (text_size f t W2).2 := by
  cases hsplit : split_words t with
  | nil =>
      simp [text_size, hsplit, h1, h2]
  | cons w0 rest =>
      have e1 := text_size_words f t W1 h1 w0 rest hsplit
      have e2 := text_size_words f t W2 h2 w0 rest hsplit
      cases hm1 : measure_loop f W1 0 1 1 (f.wOf w0) (w0 :: rest) with
      | none =>
          rw [e1, hm1] at hs1
          exact absurd rfl hs1
      | some r1 =>
          cases hm2 : measure_loop f W2 0 1 1 (f.wOf w0) (w0 :: rest) with
          | none =>
              rw [e2, hm2] at hs2
              exact absurd rfl hs2
          | some r2 =>
              obtain ⟨am1, l1, n1, c1⟩ := r1
              obtain ⟨am2, l2, n2, c2⟩ := r2
              have hl := measure_loop_mono f W1 W2 hadv hwidths hW (w0 :: rest)
                0 0 1 1 1 1 (f.wOf w0) (f.wOf w0) _ _ (hwidths w0) (hwidths w0)
                (Or.inr ⟨rfl, le_refl _⟩) hm1 hm2
              rw [e1, e2, hm1, hm2]
              exact mul_le_mul_of_nonneg_right hl hskip

/-- Witness for C8: in the flat test font, `"aa bb"` measures to height 4
(one line of 2) under budget 9 and height 4 (two lines) under budget 6. -/
theorem claim_C8_monotonicity_witness :
    (text_size (flatFont 1 1 2 10) [97, 97, 32, 98, 98] 9).2 ≤
      (text_size (flatFont 1 1 2 10) [97, 97, 32, 98, 98] 6).2 :=
  claim_C8_monotonicity (flatFont 1 1 2 10) [97, 97, 32, 98, 98] 9 6
    (by decide) (fun w => by simp [flatFont]) (by decide) (by decide) (by decide)
    (by decide) (by decide) (by decide)

/-- The word cache `_prerendered` of `font_atlas`, as an ordered association
list from word strings to rasterized-image identities, together with the next
fresh identity: `TTF_RenderUTF8_Blended` returns a freshly allocated surface
on every call, modelled by handing out `next` and incrementing it. -/
structure CacheState where
  prerendered : List (List Nat × Nat)
  next : Nat
deriving DecidableEq

/-- The lookup-or-render part of `font_atlas::word`: `_prerendered.find(w)`;
on a miss, `_prerendered[w] = TTF_RenderUTF8_Blended(...)` stores and returns
a fresh image. -/
def word_lookup (st : CacheState) (w : List Nat) : Nat × CacheState :=
  match st.prerendered.lookup w with
  | some s => (s, st)
  | none => (st.next, CacheState.mk (st.prerendered ++ [(w, st.next)]) (st.next + 1))

/-- `font_atlas::word`: if the cache holds more than 40000 entries, `clear()`
flushes every entry first; then look up or render. -/
def word (st : CacheState) (w : List Nat) : Nat × CacheState :=
  word_lookup (if 40000 < st.prerendered.length then CacheState.mk [] st.next else st) w

/-- Cache invariant: word strings are pairwise distinct (at most one entry
per distinct word), image identities are pairwise distinct, and every stored
identity was handed out before `next`. -/
def CacheInv (st : CacheState) : Prop :=
  (st.prerendered.map Prod.fst).Nodup ∧ (st.prerendered.map Prod.snd).Nodup ∧
    ∀ p ∈ st.prerendered, p.2 < st.next

theorem lookup_mem {l : List (List Nat × Nat)} {w : List Nat} {v : Nat}
    (h : l.lookup w = some v) : (w, v) ∈ l := by
  obtain ⟨l1, l2, rfl, -⟩ := List.lookup_eq_some_iff.mp h
  simp

theorem lookup_not_mem_keys {l : List (List Nat × Nat)} {w : List Nat}
    (h : l.lookup w = none) : ∀ p ∈ l, p.1 ≠ w := by
  intro p hp heq
  have hb := List.lookup_eq_none_iff.mp h p hp
  rw [heq] at hb
  simp at hb

theorem word_lookup_inv (st : CacheState) (w : List Nat) (h : CacheInv st) :
    CacheInv (word_lookup st w).2 := by
  unfold word_lookup
  cases hl : st.prerendered.lookup w with
  | some v => exact h
  | none =>
      obtain ⟨hk, hv, hb⟩ := h
      refine ⟨?_, ?_, ?_⟩
      · rw [List.map_append]
        refine hk.append (List.nodup_singleton _) ?_
        intro x hx hx2
        simp at hx2
        subst hx2
        obtain ⟨p, hp, hfst⟩ := List.mem_map.mp hx
        exact lookup_not_mem_keys hl p hp hfst
      · rw [List.map_append]
        refine hv.append (List.nodup_singleton _) ?_
        intro x hx hx2
        simp at hx2
        subst hx2
        obtain ⟨p, hp, hsnd⟩ := List.mem_map.mp hx
        exact absurd (hsnd ▸ hb p hp) (lt_irrefl _)
      · intro p hp
        rcases List.mem_append.mp hp with hmem | hmem
        · exact Nat.lt_succ_of_lt (hb p hmem)
        · simp at hmem
          rw [hmem]
          exact Nat.lt_succ_self _

theorem word_lookup_result (st : CacheState) (w : List Nat) :
    (word_lookup st w).2.prerendered.lookup w = some (word_lookup st w).1 := by
  unfold word_lookup
  cases hl : st.prerendered.lookup w with
  | some v => exact hl
  | none => simp [List.lookup_append, hl]

theorem word_lookup_lt_next (st : CacheState) (w : List Nat) (h : CacheInv st) :
    (word_lookup st w).1 < (word_lookup st w).2.next := by
  unfold word_lookup
  cases hl : st.prerendered.lookup w with
  | some v => exact h.2.2 _ (lookup_mem hl)
  | none => exact Nat.lt_succ_self _

theorem cache_inv_empty (n : Nat) : CacheInv (CacheState.mk [] n) := by
  refine ⟨by simp, by simp, by simp⟩

theorem word_inv (st : CacheState) (w : List Nat) (h : CacheInv st) :
    CacheInv (word st w).2 := by
  unfold word
  by_cases he : 40000 < st.prerendered.length
  · rw [if_pos he]
    exact word_lookup_inv _ _ (cache_inv_empty _)
  · rw [if_neg he]
    exact word_lookup_inv _ _ h

theorem word_result_lookup (st : CacheState) (w : List Nat) :
    (word st w).2.prerendered.lookup w = some (word st w).1 := by
  unfold word
  by_cases he : 40000 < st.prerendered.length
  · rw [if_pos he]
    exact word_lookup_result _ _
  · rw [if_neg he]
    exact word_lookup_result _ _

theorem word_lt_next (st : CacheState) (w : List Nat) (h : CacheInv st) :
    (word st w).1 < (word st w).2.next := by
  unfold word
  by_cases he : 40000 < st.prerendered.length
  · rw [if_pos he]
    exact word_lookup_lt_next _ _ (cache_inv_empty _)
  · rw [if_neg he]
    exact word_lookup_lt_next _ _ h

theorem word_of_lookup_some (st : CacheState) (w : List Nat) (i : Nat)
    (hlen : st.prerendered.length ≤ 40000)
    (hl : st.prerendered.lookup w = some i) : word st w = (i, st) := by
  unfold word
  rw [if_neg (by omega)]
  unfold word_lookup
  rw [hl]

theorem snd_distinct {l : List (List Nat × Nat)} {w1 w2 : List Nat} {v1 v2 : Nat}
    (hv : (l.map Prod.snd).Nodup) (h1 : (w1, v1) ∈ l) (h2 : (w2, v2) ∈ l)
    (hw : w1 ≠ w2) : v1 ≠ v2 := by
  intro heq
  subst heq
  have heq2 : (w1, v1) = (w2, v1) := List.inj_on_of_nodup_map hv h1 h2 rfl
  exact hw (congrArg Prod.fst heq2)

/-- C7: the word cache holds at most one entry per distinct word string and
hands out pairwise distinct image identities bounded by the fresh counter
(invariant `CacheInv`, established for the empty cache and preserved by every
lookup); barring eviction, looking the same word up twice returns the same
cached image with no new rasterization (the state is unchanged); and two
lookups of distinct non-empty words always return distinct image
identities. -/
theorem claim_C7_word_cache :
    CacheInv (CacheState.mk [] 0) ∧
      (∀ (st : CacheState) (w : List Nat), CacheInv st → CacheInv (word st w).2) ∧
      (∀ (st : CacheState) (w : List Nat) (i : Nat) (st' : CacheState),
        word st w = (i, st') → st'.prerendered.length ≤ 40000 →
        word st' w = (i, st')) ∧
      ∀ (st : CacheState) (w1 w2 : List Nat), CacheInv st → w1 ≠ [] → w2 ≠ [] →
        w1 ≠ w2 → (word st w1).1 ≠ (word ((word st w1).2) w2).1 := by
  refine ⟨cache_inv_empty 0, word_inv, fun st w i st' hw hlen => ?_,
    fun st w1 w2 h hne1 hne2 hne => ?_⟩
  · have hl := word_result_lookup st w
    rw [hw] at hl
    exact word_of_lookup_some st' w i hlen hl
  · have hinv1 : CacheInv (word st w1).2 := word_inv st w1 h
    have hl1 : (word st w1).2.prerendered.lookup w1 = some (word st w1).1 :=
      word_result_lookup st w1
    have hi1 : (word st w1).1 < (word st w1).2.next := word_lt_next st w1 h
    intro heq
    revert heq
    show ¬((word st w1).1 = (word_lookup (if 40000 < (word st w1).2.prerendered.length
      then CacheState.mk [] (word st w1).2.next else (word st w1).2) w2).1)
    by_cases he : 40000 < (word st w1).2.prerendered.length
    · rw [if_pos he]
      unfold word_lookup
      simp only [List.lookup_nil]
      show ¬((word st w1).1 = (word st w1).2.next)
      omega
    · rw [if_neg he]
      unfold word_lookup
      cases hl2 : (word st w1).2.prerendered.lookup w2 with
      | none =>
          show ¬((word st w1).1 = (word st w1).2.next)
          omega
      | some v =>
          exact fun heq =>
            snd_distinct hinv1.2.1 (lookup_mem hl1) (lookup_mem hl2) hne heq

/-- Witness for C7 at concrete states: caching "a" then looking it up again
returns the same identity without re-rendering, and "a" and "b" get distinct
identities. -/
theorem claim_C7_word_cache_witness :
    word (CacheState.mk [([97], 0)] 1) [97] = (0, CacheState.mk [([97], 0)] 1) ∧
      (word (CacheState.mk [] 0) [97]).1 ≠
        (word ((word (CacheState.mk [] 0) [97]).2) [98]).1 :=
  ⟨claim_C7_word_cache.2.2.1 (CacheState.mk [] 0) [97] 0 (CacheState.mk [([97], 0)] 1)
      (by decide) (by decide),
    claim_C7_word_cache.2.2.2 (CacheState.mk [] 0) [97] [98] (cache_inv_empty 0)
      (by decide) (by decide) (by decide)⟩
